import Mathlib

/-!
Verification of the payload-parsing and pagination engine of
`scrapeReviews.ts` (google-review-scraping).

The repository file concatenates two revisions of the script; the batch
parser verified here is the evolved one (`extractReviewId`,
`extractReviewText`, `walkDeep`, the combined rating/date/image walk,
lines 799-1016 of the concatenation), which is the parser the
specification describes.  The check-then-insert storage gateway
(`insertIfNew`) comes from the first revision (lines 149-195).

Parsed JSON values are modelled by the closed variant `JVal`
(string / number / boolean / null / array / object).  JSON numbers are
modelled exactly, as rationals; the engine only ever tests integrality
and the bounds 1..5, on which rationals and IEEE doubles agree for the
payloads at issue.  JavaScript `null` and `undefined` both read as
`Option.none` wherever the engine produces an "absent" result.
-/

/-- A parsed JSON value, as produced by `JSON.parse`: a closed tagged
variant of strings, numbers, booleans, null, arrays and objects.
Object fields keep their textual order; duplicate keys are resolved
last-wins at lookup time, as `JSON.parse` does. -/
inductive JVal where
  | str (s : String)
  | num (q : Rat)
  | bool (b : Bool)
  | null
  | arr (elems : List JVal)
  | obj (fields : List (String × JVal))

/-- Indexing `v[n]` with a numeric index, JavaScript style: an array
yields its `n`-th element, a string its `n`-th character as a one-char
string (character rather than UTF-16 granularity, which only differs
beyond the basic plane), an object its property named by the decimal
numeral (last duplicate key wins).  `undefined` is `none`. -/
def jsIndex : JVal → Nat → Option JVal
  | .arr xs, n => xs.get? n
  | .str s, n => (s.data.get? n).map (fun c => .str (String.singleton c))
  | .obj fs, n => (fs.reverse.find? (fun p => p.1 == toString n)).map (·.2)
  | _, _ => none

/-- Optional-chained indexing `v?.[n]`: `none` (null/undefined) stays
`none`. -/
def jsIndexO (v : Option JVal) (n : Nat) : Option JVal :=
  v.bind (fun w => jsIndex w n)

/-- JavaScript `String.prototype.startsWith`. -/
def jsStartsWith (s pre : String) : Bool :=
  pre.data.isPrefixOf s.data

/-- JavaScript `String.prototype.includes`: substring containment. -/
def jsIncludes (s sub : String) : Bool :=
  s.data.tails.any (fun t => sub.data.isPrefixOf t)

/-- JavaScript `split('p=')` on a character list: cut at every
occurrence of the two-character separator `p=`. -/
def splitPeq : List Char → List (List Char)
  | 'p' :: '=' :: rest => [] :: splitPeq rest
  | c :: rest =>
      match splitPeq rest with
      | [] => [[c]]
      | h :: t => (c :: h) :: t
  | [] => [[]]

/-- JavaScript `s.split('p=')`, as strings. -/
def jsSplitPeq (s : String) : List String :=
  (splitPeq s.data).map (fun l => { data := l })

/-- The WhiteSpace and LineTerminator characters of JavaScript: the set
removed by `String.prototype.trim` and matched by the regex class
`\s`. -/
def jsWsChar (c : Char) : Bool :=
  c ∈ [' ', '\t', '\n', '\r', '\x0b', '\x0c', '\u00a0', '\u1680',
       '\u2000', '\u2001', '\u2002', '\u2003', '\u2004', '\u2005',
       '\u2006', '\u2007', '\u2008', '\u2009', '\u200a', '\u2028',
       '\u2029', '\u202f', '\u205f', '\u3000', '\ufeff']

/-- JavaScript `String.prototype.trim`: strip `jsWsChar` characters from
both ends. -/
def jsTrim (s : String) : String :=
  { data := ((s.data.dropWhile jsWsChar).reverse.dropWhile jsWsChar).reverse }

/-- JavaScript `String.prototype.endsWith`. -/
def jsEndsWith (s suf : String) : Bool :=
  suf.data.reverse.isPrefixOf s.data.reverse

/-- The anchored alternative `^[A-Za-z]{3}\s\d{4}$` of the review-date
regex: three ASCII letters, one `\s` character, four digits. -/
def isMonYear : List Char → Bool
  | [a, b, c, w, d1, d2, d3, d4] =>
      a.isAlpha && b.isAlpha && c.isAlpha && jsWsChar w &&
      d1.isDigit && d2.isDigit && d3.isDigit && d4.isDigit
  | _ => false

/-- The anchored alternative `^\d{1,2}\/\d{1,2}\/\d{4}$` of the
review-date regex. -/
def isNumDate (l : List Char) : Bool :=
  let p1 := l.span Char.isDigit
  (p1.1.length == 1 || p1.1.length == 2) &&
  match p1.2 with
  | '/' :: r2 =>
      let p2 := r2.span Char.isDigit
      (p2.1.length == 1 || p2.1.length == 2) &&
      match p2.2 with
      | '/' :: r4 => r4.length == 4 && r4.all Char.isDigit
      | _ => false
  | _ => false

/-- The review-date test
`/ago$|Yesterday$|^[A-Za-z]{3}\s\d{4}$|^\d{1,2}\/\d{1,2}\/\d{4}$/.test(s)`. -/
def jsDateLike (s : String) : Bool :=
  jsEndsWith s "ago" || jsEndsWith s "Yesterday" ||
  isMonYear s.data || isNumDate s.data

/-- The regex `^[A-Za-z]{2}$` used for the language tag in
`extractReviewText`. -/
def isLang2 (s : String) : Bool :=
  s.data.length == 2 && s.data.all Char.isAlpha

/-! ## Tree walker

`walkDeep(node, strFn, numFn)` recursively visits string and number
leaves of a value in pre-order, ignoring booleans, null and objects.
The callbacks mutate closure state; here the state is threaded
explicitly as a left fold. -/

mutual

/-- The effect of `walkDeep(node, strFn, numFn)` on closure state
`acc`: strings feed `strFn`, numbers feed `numFn`, arrays recurse over
their elements left to right, everything else is ignored. -/
def walkDeepFold {S : Type} (node : JVal) (acc : S)
    (strFn : S → String → S) (numFn : S → Rat → S) : S :=
  match node with
  | .str s => strFn acc s
  | .num q => numFn acc q
  | .arr xs => walkDeepFoldList xs acc strFn numFn
  | _ => acc

/-- `walkDeepFold` over the elements of an array, left to right. -/
def walkDeepFoldList {S : Type} (xs : List JVal) (acc : S)
    (strFn : S → String → S) (numFn : S → Rat → S) : S :=
  match xs with
  | [] => acc
  | x :: rest => walkDeepFoldList rest (walkDeepFold x acc strFn numFn) strFn numFn

end

mutual

/-- The string and number leaves of a value in the pre-order that
`walkDeep` visits them. -/
def leaves : JVal → List (String ⊕ Rat)
  | .str s => [.inl s]
  | .num q => [.inr q]
  | .arr xs => leavesList xs
  | _ => []

/-- Concatenated leaves of a list of values. -/
def leavesList : List JVal → List (String ⊕ Rat)
  | [] => []
  | x :: xs => leaves x ++ leavesList xs

end

/-- Projection of a leaf to its string, when it is one. -/
def leafStr? : String ⊕ Rat → Option String
  | .inl s => some s
  | .inr _ => none

/-- Projection of a leaf to its number, when it is one. -/
def leafNum? : String ⊕ Rat → Option Rat
  | .inl _ => none
  | .inr q => some q

/-- The string leaves of a value, in visit order. -/
def strLeaves (v : JVal) : List String :=
  (leaves v).filterMap leafStr?

/-- The numeric leaves of a value, in visit order. -/
def numLeaves (v : JVal) : List Rat :=
  (leaves v).filterMap leafNum?

/-- One callback step of a `walkDeep` traversal, applied to a single
leaf. -/
def leafStep {S : Type} (strFn : S → String → S) (numFn : S → Rat → S)
    (acc : S) : String ⊕ Rat → S
  | .inl s => strFn acc s
  | .inr q => numFn acc q

/-! ## Field extractors -/

/-- A hit of pattern A of `extractReviewText` at one adjacent pair: a
two-letter language tag directly beside an array whose first element is
an array headed by a string. -/
def pairHit : JVal → JVal → Option String
  | .str lang, .arr ys =>
      if isLang2 lang then
        match ys with
        | .arr zs :: _ =>
            match zs with
            | .str s :: _ => some (jsTrim s)
            | _ => none
        | _ => none
      else none
  | _, _ => none

/-- Pattern A of `extractReviewText`: scan adjacent pairs left to right
for a language tag followed by the nested text array. -/
def patternA : List JVal → Option String
  | a :: rest =>
      match rest with
      | b :: _ => (pairHit a b).orElse (fun _ => patternA rest)
      | [] => none
  | [] => none

/-- Pattern B of `extractReviewText`: a one-element array wrapping the
language tag in next-to-last position, the text array last. -/
def patternB (xs : List JVal) : Option String :=
  if xs.length < 2 then none
  else
    match xs.get? (xs.length - 2), xs.get? (xs.length - 1) with
    | some (.arr pen), some (.arr lst) =>
        match pen with
        | [.str lang] =>
            if isLang2 lang then
              match lst with
              | .arr zs :: _ =>
                  match zs with
                  | .str s :: _ => some (jsTrim s)
                  | _ => none
              | _ => none
            else none
        | _ => none
    | _, _ => none

mutual

/-- The recursive search of `extractReviewText`: try pattern A, then
pattern B, then the children left to right.  The source's `seen` set
compares by object identity and so never fires on the trees produced by
`JSON.parse`, which share no references; the model omits it. -/
def recText : JVal → Option String
  | .arr xs =>
      ((patternA xs).orElse (fun _ => patternB xs)).orElse (fun _ => recTextList xs)
  | _ => none

/-- `recText` over children, first hit wins. -/
def recTextList : List JVal → Option String
  | [] => none
  | x :: xs => (recText x).orElse (fun _ => recTextList xs)

end

/-- `extractReviewText(block)`: first hit of the language-tag pattern
search, or the empty string. -/
def extractReviewText (block : JVal) : String :=
  (recText block).getD ""

/-- The reply-link marker scanned for by `extractReviewId`'s fallback. -/
def replyMarker : String := "/customers/reviews/reply?p="

/-- One string-callback step of `extractReviewId`'s fallback walk: the
first leaf containing the reply-link marker assigns
`s.split('p=')[1]`.  JavaScript's `!postId` guard treats both an unset
and an empty-string value as unset. -/
def ridStep (a : Option String) (s : String) : Option String :=
  if (a = none ∨ a = some "") ∧ jsIncludes s replyMarker then
    (jsSplitPeq s).get? 1
  else a

/-- `extractReviewId(block, pageToken)`: the fixed-position candidate
`block?.[0]?.[0]` when it is a string different from the page token;
otherwise the reply-link fallback, and failing that the candidate
itself (empty string when the candidate is not a string). -/
def extractReviewId (block : JVal) (pageToken : Option JVal) : String :=
  let candidate := jsIndexO (jsIndexO (some block) 0) 0
  let fallback : Option String := walkDeepFold block none ridStep (fun a _ => a)
  match candidate with
  | some (.str c) =>
      match pageToken with
      | some (.str p) =>
          if c == p then (match fallback with | some v => v | none => c) else c
      | _ => c
  | _ => match fallback with | some v => v | none => ""

/-- The fixed nested path `b?.[0]?.[1]?.[4]?.[5]` that holds the author
name. -/
def authorPath (b : JVal) : Option JVal :=
  jsIndexO (jsIndexO (jsIndexO (jsIndexO (some b) 0) 1) 4) 5

/-- Author extraction as inlined in `parseBatch`: the head of the fixed
path when that path is an array headed by a string, the empty string
otherwise. -/
def extractAuthor (b : JVal) : String :=
  match authorPath b with
  | some (.arr xs) =>
      match xs with
      | .str a :: _ => a
      | _ => ""
  | _ => ""

/-- Closure state of the combined rating/date/image walk in
`parseBatch`. -/
structure WalkSt where
  rating : Option Rat
  review_date : String
  images : List String
deriving DecidableEq

/-- The numeric test `Number.isInteger(n) && n >= 1 && n <= 5` of the
rating callback. -/
def isRatingNum (q : Rat) : Bool :=
  q.den == 1 && decide (1 ≤ q) && decide (q ≤ 5)

/-- `Set.prototype.add`: append unless already present (insertion order,
exact string equality). -/
def insertOnce (l : List String) (s : String) : List String :=
  if s ∈ l then l else l ++ [s]

/-- The string callback of the combined walk: a non-`http` leaf may
become the review date (first match of the date shapes wins); an `http`
leaf joins the image set. -/
def wStr (st : WalkSt) (s : String) : WalkSt :=
  if jsStartsWith s "http" = false ∧ st.review_date = "" then
    if jsDateLike s then { st with review_date := s } else st
  else if jsStartsWith s "http" then
    { st with images := insertOnce st.images s }
  else st

/-- The number callback of the combined walk: the first integer in 1..5
becomes the rating. -/
def wNum (st : WalkSt) (q : Rat) : WalkSt :=
  if st.rating = none ∧ isRatingNum q then { st with rating := some q } else st

/-! ## JSON.parse

A model of the ECMAScript `JSON.parse` grammar (RFC 8259), returning
`none` on any input the built-in rejects — in particular array elisions
such as `[,,x]`.  Recursion is bounded by a fuel argument amply larger
than the input length; a valid document always parses within it.  Lone
surrogate escapes, which Lean characters cannot carry, are mapped to
U+FFFD. -/

/-- The insignificant whitespace of the JSON grammar. -/
def jsonWs (c : Char) : Bool := c ∈ [' ', '\t', '\n', '\r']

/-- Drop insignificant JSON whitespace. -/
def skipWs (l : List Char) : List Char := l.dropWhile jsonWs

/-- Value of one hexadecimal digit. -/
def hexVal (c : Char) : Option Nat :=
  if '0' ≤ c ∧ c ≤ '9' then some (c.toNat - '0'.toNat)
  else if 'a' ≤ c ∧ c ≤ 'f' then some (c.toNat - 'a'.toNat + 10)
  else if 'A' ≤ c ∧ c ≤ 'F' then some (c.toNat - 'A'.toNat + 10)
  else none

/-- Four hexadecimal digits, as in a `\u` escape. -/
def hex4 : List Char → Option (Nat × List Char)
  | a :: b :: c :: d :: rest =>
      match hexVal a, hexVal b, hexVal c, hexVal d with
      | some x, some y, some z, some w => some (((x * 16 + y) * 16 + z) * 16 + w, rest)
      | _, _, _, _ => none
  | _ => none

/-- Body of a JSON string after the opening quote: content characters
and the remainder after the closing quote.  Unescaped control
characters are rejected; surrogate-pair escapes combine; lone
surrogates become U+FFFD. -/
def pStr : Nat → List Char → Option (List Char × List Char)
  | 0, _ => none
  | _, [] => none
  | fuel + 1, c :: rest =>
      if c = '"' then some ([], rest)
      else if c = '\\' then
        match rest with
        | [] => none
        | e :: r1 =>
            match e with
            | '"' | '\\' | '/' => (pStr fuel r1).map (fun p => (e :: p.1, p.2))
            | 'b' => (pStr fuel r1).map (fun p => ('\x08' :: p.1, p.2))
            | 'f' => (pStr fuel r1).map (fun p => ('\x0c' :: p.1, p.2))
            | 'n' => (pStr fuel r1).map (fun p => ('\n' :: p.1, p.2))
            | 'r' => (pStr fuel r1).map (fun p => ('\r' :: p.1, p.2))
            | 't' => (pStr fuel r1).map (fun p => ('\t' :: p.1, p.2))
            | 'u' =>
                match hex4 r1 with
                | none => none
                | some (n, r2) =>
                    if 0xd800 ≤ n ∧ n < 0xdc00 then
                      match r2 with
                      | '\\' :: 'u' :: r3 =>
                          match hex4 r3 with
                          | some (m, r4) =>
                              if 0xdc00 ≤ m ∧ m < 0xe000 then
                                (pStr fuel r4).map (fun p =>
                                  (Char.ofNat (0x10000 + (n - 0xd800) * 0x400 + (m - 0xdc00)) :: p.1, p.2))
                              else (pStr fuel r2).map (fun p => ('�' :: p.1, p.2))
                          | none => (pStr fuel r2).map (fun p => ('�' :: p.1, p.2))
                      | _ => (pStr fuel r2).map (fun p => ('�' :: p.1, p.2))
                    else if 0xdc00 ≤ n ∧ n < 0xe000 then
                      (pStr fuel r2).map (fun p => ('�' :: p.1, p.2))
                    else (pStr fuel r2).map (fun p => (Char.ofNat n :: p.1, p.2))
            | _ => none
      else if c.toNat < 0x20 then none
      else (pStr fuel rest).map (fun p => (c :: p.1, p.2))

/-- Decimal digits to a natural number. -/
def digitsToNat (ds : List Char) : Nat :=
  ds.foldl (fun a c => a * 10 + (c.toNat - '0'.toNat)) 0

/-- A JSON number: optional minus, integer part (`0` or a nonzero-led
digit run), optional fraction, optional exponent, valued exactly as a
rational. -/
def pNum (l : List Char) : Option (JVal × List Char) :=
  let sign := match l with | '-' :: r => (true, r) | _ => (false, l)
  let ipart : Option (Nat × List Char) :=
    match sign.2 with
    | '0' :: r => some (0, r)
    | c :: _ =>
        if c.isDigit then
          some (digitsToNat (sign.2.takeWhile Char.isDigit), sign.2.dropWhile Char.isDigit)
        else none
    | [] => none
  match ipart with
  | none => none
  | some (ip, r1) =>
      let fpart : Option (List Char × List Char) :=
        match r1 with
        | '.' :: r2 =>
            let fs := r2.takeWhile Char.isDigit
            if fs = [] then none else some (fs, r2.dropWhile Char.isDigit)
        | _ => some ([], r1)
      match fpart with
      | none => none
      | some (fs, r2) =>
          let epart : Option (Int × List Char) :=
            match r2 with
            | c :: r3 =>
                if c = 'e' ∨ c = 'E' then
                  let se : Int × List Char :=
                    match r3 with
                    | '+' :: r5 => (1, r5)
                    | '-' :: r5 => (-1, r5)
                    | _ => (1, r3)
                  let es := se.2.takeWhile Char.isDigit
                  if es = [] then none
                  else some (se.1 * (digitsToNat es : Int), se.2.dropWhile Char.isDigit)
                else some (0, r2)
            | [] => some (0, r2)
          match epart with
          | none => none
          | some (ex, r5) =>
              let m : Nat := ip * 10 ^ fs.length + digitsToNat fs
              let sgnm : Int := if sign.1 then -(m : Int) else (m : Int)
              let k : Int := ex - (fs.length : Int)
              let q : Rat :=
                if 0 ≤ k then mkRat (sgnm * ((10 ^ k.toNat : Nat) : Int)) 1
                else mkRat sgnm (10 ^ (-k).toNat)
              some (.num q, r5)

mutual

/-- A JSON value at the head of the input (leading whitespace already
consumed). -/
def pVal : Nat → List Char → Option (JVal × List Char)
  | 0, _ => none
  | fuel + 1, l =>
      match l with
      | '"' :: rest => (pStr (rest.length + 1) rest).map (fun p => (.str { data := p.1 }, p.2))
      | 't' :: 'r' :: 'u' :: 'e' :: rest => some (.bool true, rest)
      | 'f' :: 'a' :: 'l' :: 's' :: 'e' :: rest => some (.bool false, rest)
      | 'n' :: 'u' :: 'l' :: 'l' :: rest => some (.null, rest)
      | '[' :: rest =>
          (match skipWs rest with
           | ']' :: r2 => some (.arr [], r2)
           | r1 => (pVal fuel r1).bind (fun p => pArrTail fuel [p.1] p.2))
      | '{' :: rest => pObjStart fuel (skipWs rest)
      | _ => pNum l

/-- Elements after the first in an array: `, value` repeated, closed by
`]`. -/
def pArrTail : Nat → List JVal → List Char → Option (JVal × List Char)
  | 0, _, _ => none
  | fuel + 1, acc, l =>
      match skipWs l with
      | ',' :: r1 => (pVal fuel (skipWs r1)).bind (fun p => pArrTail fuel (acc ++ [p.1]) p.2)
      | ']' :: r1 => some (.arr acc, r1)
      | _ => none

/-- An object body after `{` and whitespace. -/
def pObjStart : Nat → List Char → Option (JVal × List Char)
  | 0, _ => none
  | fuel + 1, l =>
      match l with
      | '\x7d' :: r1 => some (.obj [], r1)
      | _ => (pMember fuel l).bind (fun m => pObjTail fuel [m.1] m.2)

/-- One `"key" : value` member. -/
def pMember : Nat → List Char → Option ((String × JVal) × List Char)
  | 0, _ => none
  | fuel + 1, l =>
      match l with
      | '"' :: rest =>
          (pStr (rest.length + 1) rest).bind (fun pk =>
            match skipWs pk.2 with
            | ':' :: r2 =>
                (pVal fuel (skipWs r2)).map (fun pv =>
                  ((({ data := pk.1 } : String), pv.1), pv.2))
            | _ => none)
      | _ => none

/-- Members after the first in an object. -/
def pObjTail : Nat → List (String × JVal) → List Char → Option (JVal × List Char)
  | 0, _, _ => none
  | fuel + 1, acc, l =>
      match skipWs l with
      | ',' :: r1 => (pMember fuel (skipWs r1)).bind (fun m => pObjTail fuel (acc ++ [m.1]) m.2)
      | '\x7d' :: r1 => some (.obj acc, r1)
      | _ => none

end

/-- `JSON.parse`: a complete document, whitespace allowed around the
single top-level value; anything else is a parse failure. -/
def jsonParse (s : String) : Option JVal :=
  let l := skipWs s.data
  match pVal (2 * l.length + 4) l with
  | some (v, rest) => if skipWs rest = [] then some v else none
  | none => none

/-! ## Batch parser -/

/-- The characters of the anti-XSSI security prefix `)]}'`. -/
def xssiChars : List Char := [')', ']', '\x7d', '\x27']

/-- `raw.replace(XSSI, '')` for the anchored regex `^\)\]\}'`: strip the
four-character security prefix when present, otherwise leave the string
unchanged. -/
def stripXSSI (s : String) : String :=
  if s.data.take 4 = xssiChars then { data := s.data.drop 4 } else s

/-- The text handed to `JSON.parse`: prefix stripped, then trimmed. -/
def cleanedOf (raw : String) : String := jsTrim (stripXSSI raw)

/-- The two endpoint flavors. -/
inductive Endpoint where
  | entities
  | ugc
deriving DecidableEq

/-- One parsed review, before the pagination driver adds company,
location and business URL. -/
structure ParsedReview where
  review_id : String
  author : String
  rating : Option Rat
  review_text : String
  review_date : String
  images : List String
deriving DecidableEq

/-- Initial closure state of the combined walk. -/
def initWalkSt : WalkSt := ⟨none, "", []⟩

/-- The review blocks of a parsed payload: `data?.[2]` when it is an
array, else no blocks. -/
def blocksOfData (data : JVal) : List JVal :=
  match jsIndexO (some data) 2 with
  | some (.arr bs) => bs
  | _ => []

/-- The review blocks `parseBatch` iterates for a raw payload. -/
def blocksOf (raw : String) : List JVal :=
  match jsonParse (cleanedOf raw) with
  | some data => blocksOfData data
  | none => []

/-- One iteration of the block loop of `parseBatch`: skip non-arrays,
extract the identifier and drop the block when it is empty, otherwise
assemble the record from the extractors and the combined walk,
deduplicated images truncated to 8. -/
def parseBlock (pageToken : Option JVal) (b : JVal) : Option ParsedReview :=
  match b with
  | .arr _ =>
      let review_id := extractReviewId b pageToken
      if review_id = "" then none
      else
        let st := walkDeepFold b initWalkSt wStr wNum
        some { review_id := review_id
               , author := extractAuthor b
               , rating := st.rating
               , review_text := extractReviewText b
               , review_date := st.review_date
               , images := st.images.take 8 }
  | _ => none

/-- Next-page token derivation: `ugc` reads `data?.[1]` when it is a
string; `entities` reads the first element of the last top-level
element when that element is an array.  A JSON `null` there, like an
absent value, reads as `none`.  (Non-array payloads carry no array at
`data[data.length-1]`, so they too yield `none`; an object with a
numeric `length` property is not modelled.) -/
def tokenOfData (data : JVal) (ep : Endpoint) : Option JVal :=
  match ep with
  | .ugc =>
      match jsIndexO (some data) 1 with
      | some (.str s) => some (.str s)
      | _ => none
  | .entities =>
      match data with
      | .arr ys =>
          match ys.get? (ys.length - 1) with
          | some (.arr zs) =>
              match zs.get? 0 with
              | some .null => none
              | o => o
          | _ => none
      | _ => none

/-- `parseBatch(raw, ep)`: strip the prefix, JSON-parse (failure is an
empty batch with no token), iterate the blocks at `data[2]`, and derive
the next-page token for the flavor. -/
def parseBatch (raw : String) (ep : Endpoint) : List ParsedReview × Option JVal :=
  match jsonParse (cleanedOf raw) with
  | none => ([], none)
  | some data =>
      ((blocksOfData data).filterMap (parseBlock (jsIndexO (some data) 1)),
       tokenOfData data ep)

/-! ## Token codec -/

/-- The characters `encodeURIComponent` leaves unescaped: ASCII
alphanumerics and `- _ . ! ~ * ' ( )`. -/
def uriSafe (c : Char) : Bool :=
  c.isAlphanum || c ∈ ['-', '_', '.', '!', '~', '*', '\x27', '(', ')']

/-- UTF-8 bytes of one character. -/
def utf8Bytes (c : Char) : List Nat :=
  let n := c.toNat
  if n < 0x80 then [n]
  else if n < 0x800 then [0xc0 + n / 0x40, 0x80 + n % 0x40]
  else if n < 0x10000 then
    [0xe0 + n / 0x1000, 0x80 + n / 0x40 % 0x40, 0x80 + n % 0x40]
  else
    [0xf0 + n / 0x40000, 0x80 + n / 0x1000 % 0x40, 0x80 + n / 0x40 % 0x40,
     0x80 + n % 0x40]

/-- Uppercase hexadecimal digit. -/
def hexDigitU (n : Nat) : Char :=
  ['0', '1', '2', '3', '4', '5', '6', '7', '8', '9',
   'A', 'B', 'C', 'D', 'E', 'F'].getD n '0'

/-- Percent-encoding of one byte. -/
def pctByte (b : Nat) : List Char := ['%', hexDigitU (b / 16), hexDigitU (b % 16)]

/-- One character under `encodeURIComponent`. -/
def encChar (c : Char) : List Char :=
  if uriSafe c then [c] else (utf8Bytes c).flatMap pctByte

/-- JavaScript `encodeURIComponent`. -/
def encodeURIComponent (s : String) : String := { data := s.data.flatMap encChar }

/-- The marker `!3s` (or `!2s`) that precedes the token segment. -/
def tagChars (d : Char) : List Char := ['!', d, 's']

/-- Whether the marker sits at the head of the character list. -/
def isTagAt (d : Char) (l : List Char) : Bool := l.take 3 == tagChars d

/-- Split at the first occurrence of the marker: the characters before
it and the characters after it, `none` when it never occurs — the
regex-match search of `url.replace(/!3s[^!]*/, ...)`. -/
def splitTag (d : Char) : List Char → Option (List Char × List Char)
  | [] => none
  | c :: rest =>
      if isTagAt d (c :: rest) then some ([], rest.drop 2)
      else (splitTag d rest).map (fun p => (c :: p.1, p.2))

/-- `url.replace(/!<d>s[^!]*/, m => '!<d>s' + encodeURIComponent(t))`:
replace the marker and the following run of non-`!` characters by the
marker plus the escaped token; unchanged when the marker is absent. -/
def rewriteTag (d : Char) (url t : String) : String :=
  match splitTag d url.data with
  | none => url
  | some (pre, post) =>
      { data := pre ++ tagChars d ++ (encodeURIComponent t).data ++
                post.dropWhile (fun c => c != '!') }

/-- Token rewrite for the `entities` flavor (marker `!3s`). -/
def withEntitiesToken (url t : String) : String := rewriteTag '3' url t

/-- Token rewrite for the `ugc` flavor (marker `!2s`). -/
def withUgcToken (url t : String) : String := rewriteTag '2' url t

/-- The parts of a URL outside its token-bearing segment: the
characters before the marker and the characters from the first `!`
after the token run. -/
def tokenSegSplit (d : Char) (u : List Char) : Option (List Char × List Char) :=
  (splitTag d u).map (fun p => (p.1, p.2.dropWhile (fun c => c != '!')))

/-! ## Dedup/upsert gateway -/

/-- One durable review row (the table `google_reviews`;
`review_id` is the primary key). -/
structure ReviewRow where
  company : String
  location : String
  business_url : String
  review_id : String
  author : String
  rating : Option Rat
  review_text : String
  review_date : String
  images : List String
deriving DecidableEq

/-- The identifiers stored in the table. -/
def tableIds (db : List ReviewRow) : List String := db.map (·.review_id)

/-- `SELECT review_id FROM google_reviews WHERE review_id = ANY(ids)`. -/
def existingIds (db : List ReviewRow) (ids : List String) : List String :=
  (db.map (·.review_id)).filter (fun k => decide (k ∈ ids))

/-- The batched `INSERT ... ON CONFLICT (review_id) DO NOTHING`: each
row joins the table unless its key is already present (also against
earlier rows of the same batch). -/
def insertBatchIgnore (db : List ReviewRow) (rows : List ReviewRow) : List ReviewRow :=
  rows.foldl (fun acc r => if r.review_id ∈ tableIds acc then acc else acc ++ [r]) db

/-- `insertIfNew(pg, rows)` as a state transformer on the table,
together with whether the batched insert statement was issued: empty
input returns immediately; otherwise the existing identifiers are
queried, rows whose identifier already exists are filtered out, and
only a non-empty remainder is inserted. -/
def insertIfNew (db : List ReviewRow) (rows : List ReviewRow) : List ReviewRow × Bool :=
  if rows = [] then (db, false)
  else
    let ids := rows.map (·.review_id)
    let existing := existingIds db ids
    let fresh := rows.filter (fun r => decide (¬ r.review_id ∈ existing))
    if fresh = [] then (db, false)
    else (insertBatchIgnore db fresh, true)

/-! ## Claim-side definitions

Definitions below restate clauses of the specification in their own
words, for comparison with the source-derived functions above. -/

/-- The rating callback as a transformer of the rating component alone:
the first number passing `isRatingNum` is kept. -/
def ratingStep (r : Option Rat) (q : Rat) : Option Rat :=
  if r = none ∧ isRatingNum q then some q else r

/-- The image callback as a transformer of the image list alone: every
`http`-prefixed string joins the set. -/
def imgStep (il : List String) (s : String) : List String :=
  if jsStartsWith s "http" then insertOnce il s else il

/-- Deduplication by exact string equality preserving first-seen order,
as the specification describes the image list. -/
def firstSeen (ss : List String) : List String :=
  ss.foldl insertOnce []

/-- The author the specification's fallback clause would produce: the
first string leaf of the block's first sub-tree that does not look like
a URL. -/
def firstNonUrlLeaf (o : Option JVal) : Option String :=
  o.bind (fun v => (strLeaves v).find? (fun s => !(jsStartsWith s "http")))

/-- The fixed-nested-path clause of the author specification: the head
of `b?.[0]?.[1]?.[4]?.[5]` when that path is an array headed by a
string. -/
def authorFixedPathOpt (b : JVal) : Option String :=
  match authorPath b with
  | some (.arr xs) =>
      match xs with
      | .str a :: _ => some a
      | _ => none
  | _ => none

/-- The scenario payload of the specification, literally:
`)]}'[,,[["a"],"2024",[1],["hi"],["http://img/1.png"]]],null]`. -/
def c5payload : String :=
  ")]\x7d\x27[,,[[\"a\"],\"2024\",[1],[\"hi\"],[\"http://img/1.png\"]]],null]"

/-! ## Walker lemmas -/

mutual

/-- `walkDeep` is the left fold of its callbacks over the pre-order
leaf sequence. -/
theorem walkDeepFold_eq_foldl {S : Type} (strFn : S → String → S) (numFn : S → Rat → S) :
    ∀ (v : JVal) (acc : S),
      walkDeepFold v acc strFn numFn = (leaves v).foldl (leafStep strFn numFn) acc
  | .str s, acc => by simp [walkDeepFold, leaves, leafStep]
  | .num q, acc => by simp [walkDeepFold, leaves, leafStep]
  | .bool b, acc => by simp [walkDeepFold, leaves]
  | .null, acc => by simp [walkDeepFold, leaves]
  | .obj fs, acc => by simp [walkDeepFold, leaves]
  | .arr xs, acc => by
      rw [show walkDeepFold (.arr xs) acc strFn numFn = walkDeepFoldList xs acc strFn numFn
            from rfl,
          show leaves (.arr xs) = leavesList xs from rfl]
      exact walkDeepFoldList_eq_foldl strFn numFn xs acc

/-- List version of `walkDeepFold_eq_foldl`. -/
theorem walkDeepFoldList_eq_foldl {S : Type} (strFn : S → String → S) (numFn : S → Rat → S) :
    ∀ (xs : List JVal) (acc : S),
      walkDeepFoldList xs acc strFn numFn = (leavesList xs).foldl (leafStep strFn numFn) acc
  | [], acc => by simp [walkDeepFoldList, leavesList]
  | x :: rest, acc => by
      rw [show walkDeepFoldList (x :: rest) acc strFn numFn
            = walkDeepFoldList rest (walkDeepFold x acc strFn numFn) strFn numFn from rfl,
          show leavesList (x :: rest) = leaves x ++ leavesList rest from rfl,
          List.foldl_append, ← walkDeepFold_eq_foldl strFn numFn x acc]
      exact walkDeepFoldList_eq_foldl strFn numFn rest _

end

/-- Membership in `strLeaves` is membership of an `inl` leaf. -/
theorem mem_strLeaves {s : String} {v : JVal} :
    s ∈ strLeaves v ↔ Sum.inl s ∈ leaves v := by
  constructor
  · intro h
    obtain ⟨a, ha, hpr⟩ := List.mem_filterMap.mp h
    cases a with
    | inl t => simp [leafStr?] at hpr; exact hpr ▸ ha
    | inr q => simp [leafStr?] at hpr
  · intro h
    exact List.mem_filterMap.mpr ⟨Sum.inl s, h, rfl⟩

/-- The string callback never touches the rating. -/
theorem wStr_rating (st : WalkSt) (s : String) : (wStr st s).rating = st.rating := by
  unfold wStr
  split_ifs <;> rfl

/-- The number callback acts on the rating component as `ratingStep`. -/
theorem wNum_rating (st : WalkSt) (q : Rat) :
    (wNum st q).rating = ratingStep st.rating q := by
  unfold wNum ratingStep
  split_ifs <;> rfl

/-- The number callback never touches the images. -/
theorem wNum_images (st : WalkSt) (q : Rat) : (wNum st q).images = st.images := by
  unfold wNum
  split_ifs <;> rfl

/-- The string callback acts on the image component as `imgStep`. -/
theorem wStr_images (st : WalkSt) (s : String) :
    (wStr st s).images = imgStep st.images s := by
  unfold wStr imgStep
  cases hh : jsStartsWith s "http"
  all_goals by_cases hd : st.review_date = ""
  all_goals simp [hh, hd]
  all_goals split_ifs <;> rfl

/-- The rating component of the combined walk over a leaf list folds
`ratingStep` over the numeric leaves alone. -/
theorem foldl_rating (l : List (String ⊕ Rat)) :
    ∀ st : WalkSt,
      (l.foldl (leafStep wStr wNum) st).rating
        = (l.filterMap leafNum?).foldl ratingStep st.rating := by
  induction l with
  | nil => intro st; rfl
  | cons a rest ih =>
      intro st
      cases a with
      | inl s =>
          rw [show ((Sum.inl s : String ⊕ Rat) :: rest).foldl (leafStep wStr wNum) st
                = rest.foldl (leafStep wStr wNum) (wStr st s) from rfl,
              ih (wStr st s), wStr_rating]
          rfl
      | inr q =>
          rw [show ((Sum.inr q : String ⊕ Rat) :: rest).foldl (leafStep wStr wNum) st
                = rest.foldl (leafStep wStr wNum) (wNum st q) from rfl,
              ih (wNum st q), wNum_rating]
          rfl

/-- The image component of the combined walk over a leaf list folds
`imgStep` over the string leaves alone. -/
theorem foldl_images (l : List (String ⊕ Rat)) :
    ∀ st : WalkSt,
      (l.foldl (leafStep wStr wNum) st).images
        = (l.filterMap leafStr?).foldl imgStep st.images := by
  induction l with
  | nil => intro st; rfl
  | cons a rest ih =>
      intro st
      cases a with
      | inl s =>
          rw [show ((Sum.inl s : String ⊕ Rat) :: rest).foldl (leafStep wStr wNum) st
                = rest.foldl (leafStep wStr wNum) (wStr st s) from rfl,
              ih (wStr st s), wStr_images]
          rfl
      | inr q =>
          rw [show ((Sum.inr q : String ⊕ Rat) :: rest).foldl (leafStep wStr wNum) st
                = rest.foldl (leafStep wStr wNum) (wNum st q) from rfl,
              ih (wNum st q), wNum_images]
          rfl

/-- A rating once set is never changed. -/
theorem foldl_ratingStep_some (l : List Rat) (a : Rat) :
    l.foldl ratingStep (some a) = some a := by
  induction l with
  | nil => rfl
  | cons q rest ih => simpa [ratingStep] using ih

/-- Folding `ratingStep` from an unset rating finds the first number
passing `isRatingNum`. -/
theorem foldl_ratingStep_none (l : List Rat) :
    l.foldl ratingStep none = l.find? isRatingNum := by
  induction l with
  | nil => rfl
  | cons q rest ih =>
      by_cases hq : isRatingNum q
      · have hstep : ratingStep none q = some q := by simp [ratingStep, hq]
        rw [show (q :: rest).foldl ratingStep none = rest.foldl ratingStep (ratingStep none q)
              from rfl,
            hstep, foldl_ratingStep_some, List.find?_cons_of_pos _ hq]
      · have hstep : ratingStep none q = none := by simp [ratingStep, hq]
        rw [show (q :: rest).foldl ratingStep none = rest.foldl ratingStep (ratingStep none q)
              from rfl,
            hstep, ih, List.find?_cons_of_neg]
        simpa using hq

/-- Folding `imgStep` keeps exactly the `http`-prefixed strings, in
order, through `insertOnce`. -/
theorem foldl_imgStep (ss : List String) :
    ∀ il : List String,
      ss.foldl imgStep il = (ss.filter (fun s => jsStartsWith s "http")).foldl insertOnce il := by
  induction ss with
  | nil => intro il; rfl
  | cons s rest ih =>
      intro il
      cases hh : jsStartsWith s "http" with
      | true =>
          rw [show (s :: rest).foldl imgStep il = rest.foldl imgStep (imgStep il s) from rfl,
              ih, List.filter_cons_of_pos (by simp [hh])]
          simp [imgStep, hh]
      | false =>
          rw [show (s :: rest).foldl imgStep il = rest.foldl imgStep (imgStep il s) from rfl,
              ih, List.filter_cons_of_neg (by simp [hh])]
          simp [imgStep, hh]

/-- `insertOnce` preserves absence of duplicates. -/
theorem nodup_insertOnce {l : List String} (h : l.Nodup) (s : String) :
    (insertOnce l s).Nodup := by
  unfold insertOnce
  split_ifs with hs
  · exact h
  · simpa [List.nodup_append] using ⟨h, hs⟩

/-- A fold of `insertOnce` from a duplicate-free accumulator stays
duplicate-free. -/
theorem nodup_foldl_insertOnce (ss : List String) :
    ∀ il : List String, il.Nodup → (ss.foldl insertOnce il).Nodup := by
  induction ss with
  | nil => intro il h; exact h
  | cons s rest ih =>
      intro il h
      exact ih (insertOnce il s) (nodup_insertOnce h s)

/-- When no string leaf contains the reply marker, the fallback walk of
`extractReviewId` leaves its state unchanged. -/
theorem foldl_ridStep_no_marker (l : List (String ⊕ Rat)) :
    ∀ a : Option String,
      (∀ s : String, Sum.inl s ∈ l → jsIncludes s replyMarker = false) →
      l.foldl (leafStep ridStep (fun a _ => a)) a = a := by
  induction l with
  | nil => intro a _; rfl
  | cons x rest ih =>
      intro a hm
      cases x with
      | inl s =>
          have hs : jsIncludes s replyMarker = false := hm s (List.mem_cons_self _ _)
          have hstep : ridStep a s = a := by simp [ridStep, hs]
          rw [show ((Sum.inl s : String ⊕ Rat) :: rest).foldl (leafStep ridStep (fun a _ => a)) a
                = rest.foldl (leafStep ridStep (fun a _ => a)) (ridStep a s) from rfl, hstep]
          exact ih a (fun t ht => hm t (List.mem_cons_of_mem _ ht))
      | inr q =>
          rw [show ((Sum.inr q : String ⊕ Rat) :: rest).foldl (leafStep ridStep (fun a _ => a)) a
                = rest.foldl (leafStep ridStep (fun a _ => a)) a from rfl]
          exact ih a (fun t ht => hm t (List.mem_cons_of_mem _ ht))

/-- A record emitted by the block loop carries the walk's rating, the
walk's images truncated to 8, and a non-empty identifier. -/
theorem parseBlock_some {pt : Option JVal} {b : JVal} {rec : ParsedReview}
    (h : parseBlock pt b = some rec) :
    rec.rating = (walkDeepFold b initWalkSt wStr wNum).rating ∧
    rec.images = (walkDeepFold b initWalkSt wStr wNum).images.take 8 ∧
    rec.review_id = extractReviewId b pt ∧ rec.review_id ≠ "" := by
  cases b with
  | arr xs =>
      by_cases hid : extractReviewId (.arr xs) pt = ""
      · simp [parseBlock, hid] at h
      · simp only [parseBlock, hid, if_false] at h
        rw [Option.some_inj] at h
        subst h
        exact ⟨rfl, rfl, rfl, hid⟩
  | str s => simp [parseBlock] at h
  | num q => simp [parseBlock] at h
  | bool v => simp [parseBlock] at h
  | null => simp [parseBlock] at h
  | obj fs => simp [parseBlock] at h

/-- Decomposition of membership in a parse result: the record comes
from some block of the payload through the block loop. -/
theorem mem_parseBatch {raw : String} {ep : Endpoint} {rec : ParsedReview}
    (h : rec ∈ (parseBatch raw ep).1) :
    ∃ data b, jsonParse (cleanedOf raw) = some data ∧ b ∈ blocksOfData data ∧
      parseBlock (jsIndexO (some data) 1) b = some rec := by
  unfold parseBatch at h
  cases hp : jsonParse (cleanedOf raw) with
  | none => rw [hp] at h; simp at h
  | some data =>
      rw [hp] at h
      obtain ⟨b, hb, hpb⟩ := List.mem_filterMap.mp h
      exact ⟨data, b, rfl, hb, hpb⟩

/-- The blocks of a payload whose body parses to `data`. -/
theorem blocksOf_eq {raw : String} {data : JVal}
    (hp : jsonParse (cleanedOf raw) = some data) :
    blocksOf raw = blocksOfData data := by
  simp [blocksOf, hp]

/-! ## Claim theorems -/

/-- C2: every record produced by `parseBatch` has a rating that is
either absent or an integer in the inclusive range 1..5, and when
present it is the first integer in that range among the block's numeric
leaves in traversal order. -/
theorem parseBatch_rating_range (raw : String) (ep : Endpoint) (rec : ParsedReview)
    (hrec : rec ∈ (parseBatch raw ep).1) :
    (rec.rating = none ∨ ∃ q, rec.rating = some q ∧ isRatingNum q = true) ∧
    ∃ b, b ∈ blocksOf raw ∧ rec.rating = (numLeaves b).find? isRatingNum := by
  obtain ⟨data, b, hp, hb, hpb⟩ := mem_parseBatch hrec
  have hr := (parseBlock_some hpb).1
  have hchain : rec.rating = (numLeaves b).find? isRatingNum := by
    rw [hr, walkDeepFold_eq_foldl, foldl_rating,
        show initWalkSt.rating = none from rfl, foldl_ratingStep_none]
    rfl
  refine ⟨?_, b, by rw [blocksOf_eq hp]; exact hb, hchain⟩
  cases hfind : (numLeaves b).find? isRatingNum with
  | none => exact Or.inl (by rw [hchain, hfind])
  | some q => exact Or.inr ⟨q, by rw [hchain, hfind], List.find?_some hfind⟩

/-- C2 witness: the payload `[null,"PTOK",[[["id1"],4]]]` yields the
record with identifier `id1` and rating 4, and the theorem applies to
it. -/
theorem parseBatch_rating_range_witness :
    (⟨"id1", "", some 4, "", "", []⟩ : ParsedReview)
        ∈ (parseBatch "[null,\"PTOK\",[[[\"id1\"],4]]]" Endpoint.entities).1 ∧
    (((⟨"id1", "", some 4, "", "", []⟩ : ParsedReview).rating = none ∨
        ∃ q, (⟨"id1", "", some 4, "", "", []⟩ : ParsedReview).rating = some q ∧
          isRatingNum q = true) ∧
      ∃ b, b ∈ blocksOf "[null,\"PTOK\",[[[\"id1\"],4]]]" ∧
        (⟨"id1", "", some 4, "", "", []⟩ : ParsedReview).rating
          = (numLeaves b).find? isRatingNum) :=
  ⟨by decide,
   parseBatch_rating_range "[null,\"PTOK\",[[[\"id1\"],4]]]" Endpoint.entities
     ⟨"id1", "", some 4, "", "", []⟩ (by decide)⟩

/-- C4: every record's image list has at most 8 entries, no duplicate
strings, and lists the `http`-prefixed string leaves of its block in
first-occurrence order. -/
theorem parseBatch_images_bounded (raw : String) (ep : Endpoint) (rec : ParsedReview)
    (hrec : rec ∈ (parseBatch raw ep).1) :
    rec.images.length ≤ 8 ∧ rec.images.Nodup ∧
    ∃ b, b ∈ blocksOf raw ∧
      rec.images
        = (firstSeen ((strLeaves b).filter (fun s => jsStartsWith s "http"))).take 8 := by
  obtain ⟨data, b, hp, hb, hpb⟩ := mem_parseBatch hrec
  have hi := (parseBlock_some hpb).2.1
  have himg : (walkDeepFold b initWalkSt wStr wNum).images
      = firstSeen ((strLeaves b).filter (fun s => jsStartsWith s "http")) := by
    rw [walkDeepFold_eq_foldl, foldl_images, foldl_imgStep]
    rfl
  refine ⟨?_, ?_, b, by rw [blocksOf_eq hp]; exact hb, by rw [hi, himg]⟩
  · rw [hi]; exact List.length_take_le _ _
  · rw [hi, himg]
    exact List.Nodup.sublist (List.take_sublist _ _)
      (nodup_foldl_insertOnce _ [] List.nodup_nil)

/-- C4 witness: a payload whose block carries a duplicated image URL
yields the deduplicated two-element image list, and the theorem applies
to it. -/
theorem parseBatch_images_bounded_witness :
    (⟨"id2", "", none, "", "", ["http://a", "http://b"]⟩ : ParsedReview)
        ∈ (parseBatch "[null,\"PTOK\",[[[\"id2\"],[\"http://a\",\"http://a\",\"http://b\"]]]]"
            Endpoint.entities).1 ∧
    ((⟨"id2", "", none, "", "", ["http://a", "http://b"]⟩ : ParsedReview).images.length ≤ 8 ∧
      (⟨"id2", "", none, "", "", ["http://a", "http://b"]⟩ : ParsedReview).images.Nodup ∧
      ∃ b, b ∈ blocksOf "[null,\"PTOK\",[[[\"id2\"],[\"http://a\",\"http://a\",\"http://b\"]]]]" ∧
        (⟨"id2", "", none, "", "", ["http://a", "http://b"]⟩ : ParsedReview).images
          = (firstSeen ((strLeaves b).filter (fun s => jsStartsWith s "http"))).take 8) :=
  ⟨by decide,
   parseBatch_images_bounded "[null,\"PTOK\",[[[\"id2\"],[\"http://a\",\"http://a\",\"http://b\"]]]]"
     Endpoint.entities ⟨"id2", "", none, "", "", ["http://a", "http://b"]⟩ (by decide)⟩

/-- C3: an input whose remainder after stripping the security prefix
fails to parse as JSON yields the empty batch and an absent token. -/
theorem parseBatch_malformed (raw : String) (ep : Endpoint)
    (h : jsonParse (cleanedOf raw) = none) :
    parseBatch raw ep = ([], none) := by
  unfold parseBatch
  rw [h]

/-- C3 witness: `)]}'nope` strips to `nope`, which is not JSON, and the
theorem yields the empty batch for it. -/
theorem parseBatch_malformed_witness :
    jsonParse (cleanedOf ")]\x7d\x27nope") = none ∧
    parseBatch ")]\x7d\x27nope" Endpoint.ugc = ([], none) :=
  ⟨rfl, parseBatch_malformed ")]\x7d\x27nope" Endpoint.ugc rfl⟩

/-- C10: `parseBatch` is a total function: on every input string and
flavor it returns a record list and token, with no more records than
there are blocks at the fixed offset. -/
theorem parseBatch_total (raw : String) (ep : Endpoint) :
    ∃ recs tok, parseBatch raw ep = (recs, tok) ∧ recs.length ≤ (blocksOf raw).length := by
  cases hp : jsonParse (cleanedOf raw) with
  | none =>
      exact ⟨[], none, by unfold parseBatch; rw [hp], by simp⟩
  | some data =>
      refine ⟨(blocksOfData data).filterMap (parseBlock (jsIndexO (some data) 1)),
              tokenOfData data ep, by unfold parseBatch; rw [hp], ?_⟩
      rw [blocksOf_eq hp]
      exact List.length_filterMap_le _ _

/-- C8: a payload lacking the security prefix parses exactly as the
same payload with the prefix prepended. -/
theorem parseBatch_prefix_idem (raw : String) (ep : Endpoint)
    (h : raw.data.take 4 ≠ xssiChars) :
    parseBatch (")]\x7d\x27" ++ raw) ep = parseBatch raw ep := by
  have hdata : (")]\x7d\x27" ++ raw).data = xssiChars ++ raw.data := rfl
  have hstrip : stripXSSI (")]\x7d\x27" ++ raw) = raw := by
    unfold stripXSSI
    rw [hdata]
    rw [if_pos]
    · show ({ data := (xssiChars ++ raw.data).drop 4 } : String) = raw
      rw [show (xssiChars ++ raw.data).drop 4 = raw.data from
            List.drop_left' (by rfl)]
    · exact List.take_left' (by rfl)
  have hstrip2 : stripXSSI raw = raw := by
    unfold stripXSSI
    rw [if_neg h]
  have hclean : cleanedOf (")]\x7d\x27" ++ raw) = cleanedOf raw := by
    unfold cleanedOf
    rw [hstrip, hstrip2]
  unfold parseBatch
  rw [hclean]

/-- C8 witness: `[]` does not start with the prefix and parses the same
with `)]}'` prepended. -/
theorem parseBatch_prefix_idem_witness :
    ("[]" : String).data.take 4 ≠ xssiChars ∧
    parseBatch (")]\x7d\x27" ++ "[]") Endpoint.entities = parseBatch "[]" Endpoint.entities :=
  ⟨by decide, parseBatch_prefix_idem "[]" Endpoint.entities (by decide)⟩

/-- C1 counterexample: a block whose fixed-position candidate equals
the page token and which contains no reply-link marker gets the page
token itself as its identifier — not the empty string — and the block
is kept in the parse result under that identifier. -/
theorem extractReviewId_token_echo_cex :
    extractReviewId (JVal.arr [JVal.arr [JVal.str "TOK"]]) (some (JVal.str "TOK")) = "TOK" ∧
    (∀ s ∈ strLeaves (JVal.arr [JVal.arr [JVal.str "TOK"]]),
        jsIncludes s replyMarker = false) ∧
    ("TOK" : String) ≠ "" ∧
    (parseBatch "[null,\"TOK\",[[[\"TOK\"]]]]" Endpoint.entities).1.map (·.review_id)
      = ["TOK"] :=
  ⟨by decide, by decide, by decide, by decide⟩

/-- C1 amended: when the candidate `block[0][0]` is a string equal to
the page token and no string leaf of the block contains the reply-link
marker, `extractReviewId` returns that candidate — the page token —
so the block is dropped only when the token itself is empty. -/
theorem extractReviewId_token_echo (b : JVal) (t : String)
    (hc : jsIndexO (jsIndexO (some b) 0) 0 = some (JVal.str t))
    (hm : ∀ s ∈ strLeaves b, jsIncludes s replyMarker = false) :
    extractReviewId b (some (JVal.str t)) = t := by
  have hfb : walkDeepFold b none ridStep (fun a _ => a) = none := by
    rw [walkDeepFold_eq_foldl]
    exact foldl_ridStep_no_marker _ none (fun s hs => hm s (mem_strLeaves.mpr hs))
  unfold extractReviewId
  rw [hc, hfb]
  simp

/-- C1 witness: the amended theorem applied to the one-leaf echo
block. -/
theorem extractReviewId_token_echo_witness :
    (jsIndexO (jsIndexO (some (JVal.arr [JVal.arr [JVal.str "PT"]])) 0) 0
        = some (JVal.str "PT") ∧
      ∀ s ∈ strLeaves (JVal.arr [JVal.arr [JVal.str "PT"]]),
        jsIncludes s replyMarker = false) ∧
    extractReviewId (JVal.arr [JVal.arr [JVal.str "PT"]]) (some (JVal.str "PT")) = "PT" :=
  ⟨⟨rfl, by decide⟩,
   extractReviewId_token_echo (JVal.arr [JVal.arr [JVal.str "PT"]]) "PT" rfl (by decide)⟩

/-- C5 counterexample: on the literal scenario payload, `parseBatch`
does not yield one record. -/
theorem parseBatch_scenario_cex :
    ¬ ((parseBatch c5payload Endpoint.entities).1.length = 1) := by
  decide

/-- C5 amended: the scenario payload is rejected by `JSON.parse` (array
elisions `[,,` are not valid JSON), so `parseBatch` yields zero records
and an absent token. -/
theorem parseBatch_scenario_amended :
    jsonParse (cleanedOf c5payload) = none ∧
    parseBatch c5payload Endpoint.entities = ([], none) :=
  ⟨rfl, rfl⟩

/-- C9 counterexample: on a block whose fixed author path is absent but
whose first sub-tree holds the non-URL string `Alice`, author
extraction returns the empty string, not that leaf — there is no
fallback walk. -/
theorem extractAuthor_no_fallback_cex :
    extractAuthor (JVal.arr [JVal.arr [JVal.str "Alice"]]) = "" ∧
    authorFixedPathOpt (JVal.arr [JVal.arr [JVal.str "Alice"]]) = none ∧
    firstNonUrlLeaf (jsIndexO (some (JVal.arr [JVal.arr [JVal.str "Alice"]])) 0)
      = some "Alice" ∧
    ("Alice" : String) ≠ "" :=
  ⟨rfl, rfl, rfl, by decide⟩

/-- C9 amended: author extraction reads the fixed nested path
`b[0][1][4][5][0]` when that path is an array headed by a string and
otherwise returns the empty string; it never fails, and it performs no
fallback walk. -/
theorem extractAuthor_path_only (b : JVal) :
    extractAuthor b = (authorFixedPathOpt b).getD "" := by
  unfold extractAuthor authorFixedPathOpt
  cases h : authorPath b with
  | none => rfl
  | some v =>
      cases v with
      | arr xs =>
          cases xs with
          | nil => rfl
          | cons x rest => cases x <;> rfl
      | str s => rfl
      | num q => rfl
      | bool v => rfl
      | null => rfl
      | obj fs => rfl

/-! ## Token codec lemmas -/

/-- A successful marker search decomposes the list, and the part before
the marker is itself marker-free. -/
theorem splitTag_some (d : Char) :
    ∀ l pre post, splitTag d l = some (pre, post) →
      l = pre ++ tagChars d ++ post ∧ splitTag d pre = none := by
  intro l
  induction l with
  | nil => intro pre post h; simp [splitTag] at h
  | cons c rest ih =>
      intro pre post h
      unfold splitTag at h
      split_ifs at h with htag
      · rw [Option.some_inj, Prod.mk.injEq] at h
        obtain ⟨hpre, hpost⟩ := h
        subst hpre; subst hpost
        have htake : (c :: rest).take 3 = tagChars d := by
          simpa [isTagAt] using htag
        refine ⟨?_, rfl⟩
        have hsplit := List.take_append_drop 3 (c :: rest)
        rw [htake] at hsplit
        rw [List.nil_append, ← hsplit]
        rfl
      · cases hsp : splitTag d rest with
        | none => rw [hsp] at h; simp at h
        | some p =>
            rw [hsp] at h
            rw [Option.map_some', Option.some_inj, Prod.mk.injEq] at h
            obtain ⟨hpre, hpost⟩ := h
            subst hpre; subst hpost
            obtain ⟨hl, hnone⟩ := ih p.1 p.2 hsp
            constructor
            · rw [List.cons_append, List.cons_append, ← hl]
            · show splitTag d (c :: p.1) = none
              unfold splitTag
              rw [if_neg ?_, hnone]
              · rfl
              · cases hp1 : p.1 with
                | nil => simp [isTagAt, tagChars]
                | cons a t =>
                    cases t with
                    | nil => simp [isTagAt, tagChars]
                    | cons b t2 =>
                        intro hcon
                        apply htag
                        rw [hl, hp1]
                        have heq : isTagAt d (c :: (a :: b :: t2 ++ tagChars d ++ p.2))
                            = isTagAt d (c :: a :: b :: t2) := by
                          simp [isTagAt]
                        rw [heq]
                        exact hcon

/-- Prepending a marker-free prefix to the marker and a tail places the
first marker occurrence exactly at the end of that prefix: the marker
`!<d>s` cannot straddle the boundary, because an occurrence overlapping
it would force `'!' = 's'`. -/
theorem splitTag_append (d : Char) :
    ∀ pre x, splitTag d pre = none →
      splitTag d (pre ++ tagChars d ++ x) = some (pre, x) := by
  intro pre
  induction pre with
  | nil =>
      intro x _
      show splitTag d ('!' :: d :: 's' :: x) = some ([], x)
      unfold splitTag
      rw [if_pos (by simp [isTagAt, tagChars])]
      rfl
  | cons c pre' ih =>
      intro x hnone
      have h1 : isTagAt d (c :: pre') = false ∧ splitTag d pre' = none := by
        unfold splitTag at hnone
        split_ifs at hnone with ht
        exact ⟨by simpa using ht, by simpa [Option.map_eq_none'] using hnone⟩
      show splitTag d (c :: (pre' ++ tagChars d ++ x)) = some (c :: pre', x)
      unfold splitTag
      rw [if_neg ?_, ih x h1.2]
      · rfl
      · cases pre' with
        | nil =>
            simp [isTagAt, tagChars]
            intro _ h2 h3
            exact absurd (h2.trans h3) (by decide)
        | cons a pre'' =>
            cases pre'' with
            | nil => simp [isTagAt, tagChars]
            | cons b t2 =>
                intro hcon
                have heq : isTagAt d (c :: (a :: b :: t2 ++ tagChars d ++ x))
                    = isTagAt d (c :: a :: b :: t2) := by
                  simp [isTagAt]
                rw [heq, h1.1] at hcon
                exact absurd hcon (by decide)

/-- Dropping while a predicate holds skips a wholly satisfying front
segment. -/
theorem dropWhile_append_of_forall {p : Char → Bool} :
    ∀ l1 l2 : List Char, (∀ c ∈ l1, p c = true) →
      (l1 ++ l2).dropWhile p = l2.dropWhile p := by
  intro l1
  induction l1 with
  | nil => intro l2 _; rfl
  | cons c t ih =>
      intro l2 h
      rw [List.cons_append, List.dropWhile_cons,
          if_pos (h c (List.mem_cons_self _ _))]
      exact ih l2 (fun a ha => h a (List.mem_cons_of_mem _ ha))

/-- `dropWhile` is idempotent. -/
theorem dropWhile_idem {p : Char → Bool} (l : List Char) :
    (l.dropWhile p).dropWhile p = l.dropWhile p := by
  induction l with
  | nil => rfl
  | cons c t ih =>
      rw [List.dropWhile_cons]
      split_ifs with h
      · exact ih
      · rw [List.dropWhile_cons, if_neg h]

/-- An uppercase hexadecimal digit is never `!`. -/
theorem hexDigitU_ne_bang (n : Nat) : hexDigitU n ≠ '!' := by
  unfold hexDigitU
  rcases Nat.lt_or_ge n 16 with h | h
  · interval_cases n <;> decide
  · rw [List.getD_eq_default _ _ (by simpa using h)]
    decide

/-- `encodeURIComponent` introduces no `!`: an escaped byte is `%` plus
hexadecimal digits, and a pass-through character keeps its identity. -/
theorem mem_encChar_ne_bang {c x : Char} (hx : x ≠ '!') (hc : c ∈ encChar x) :
    c ≠ '!' := by
  unfold encChar at hc
  split_ifs at hc with hsafe
  · simp at hc; exact hc ▸ hx
  · obtain ⟨b, _, hcb⟩ := List.mem_flatMap.mp hc
    simp [pctByte] at hcb
    rcases hcb with rfl | rfl | rfl
    · decide
    · exact hexDigitU_ne_bang _
    · exact hexDigitU_ne_bang _

/-- The escape of a `!`-free token is `!`-free. -/
theorem mem_enc_ne_bang {t : String} (h : '!' ∉ t.data) :
    ∀ c ∈ (encodeURIComponent t).data, c ≠ '!' := by
  intro c hc
  unfold encodeURIComponent at hc
  obtain ⟨x, hx, hcx⟩ := List.mem_flatMap.mp hc
  exact mem_encChar_ne_bang (fun hxe => h (hxe ▸ hx)) hcx

/-- `rewriteTag` when the marker is absent: the URL is unchanged. -/
theorem rewriteTag_of_none {d : Char} {url : String} (t : String)
    (h : splitTag d url.data = none) : rewriteTag d url t = url := by
  unfold rewriteTag; rw [h]

/-- `rewriteTag` when the marker is found: prefix, marker, escaped
token, and the remainder from the first `!` after the marker. -/
theorem rewriteTag_of_some {d : Char} {url : String} {pre post : List Char} (t : String)
    (h : splitTag d url.data = some (pre, post)) :
    rewriteTag d url t
      = { data := pre ++ tagChars d ++ (encodeURIComponent t).data ++
                  post.dropWhile (fun c => c != '!') } := by
  unfold rewriteTag; rw [h]

/-- Rewriting twice with `!`-free tokens equals rewriting once with the
final token, and leaves every character outside the token-bearing
segment as it was in the original URL. -/
theorem rewriteTag_round (d : Char) (url t1 t2 : String) (h1 : '!' ∉ t1.data) :
    rewriteTag d (rewriteTag d url t1) t2 = rewriteTag d url t2 ∧
    ('!' ∉ t2.data →
      tokenSegSplit d (rewriteTag d (rewriteTag d url t1) t2).data
        = tokenSegSplit d url.data) := by
  cases hsp : splitTag d url.data with
  | none =>
      rw [rewriteTag_of_none t1 hsp, rewriteTag_of_none t2 hsp]
      exact ⟨rfl, fun _ => rfl⟩
  | some p =>
      obtain ⟨pre, post⟩ := p
      obtain ⟨hurl, hprenone⟩ := splitTag_some d url.data pre post hsp
      have r1 := rewriteTag_of_some t1 hsp
      have hr1data : (rewriteTag d url t1).data
          = pre ++ tagChars d ++ ((encodeURIComponent t1).data ++
              post.dropWhile (fun c => c != '!')) := by
        rw [r1]; simp [List.append_assoc]
      have hsp1 : splitTag d (rewriteTag d url t1).data
          = some (pre, (encodeURIComponent t1).data ++
              post.dropWhile (fun c => c != '!')) := by
        rw [hr1data]; exact splitTag_append d pre _ hprenone
      have henc1 : ∀ c ∈ (encodeURIComponent t1).data, (c != '!') = true := by
        intro c hc; simpa using mem_enc_ne_bang h1 c hc
      have hdw : ((encodeURIComponent t1).data ++
            post.dropWhile (fun c => c != '!')).dropWhile (fun c => c != '!')
          = post.dropWhile (fun c => c != '!') := by
        rw [dropWhile_append_of_forall _ _ henc1, dropWhile_idem]
      have r2 : rewriteTag d (rewriteTag d url t1) t2
          = { data := pre ++ tagChars d ++ (encodeURIComponent t2).data ++
                      post.dropWhile (fun c => c != '!') } := by
        rw [rewriteTag_of_some t2 hsp1, hdw]
      have rgoal := rewriteTag_of_some t2 hsp
      refine ⟨by rw [r2, rgoal], fun h2 => ?_⟩
      have hr2data : (rewriteTag d (rewriteTag d url t1) t2).data
          = pre ++ tagChars d ++ ((encodeURIComponent t2).data ++
              post.dropWhile (fun c => c != '!')) := by
        rw [r2]; simp [List.append_assoc]
      have hsp2 : splitTag d (rewriteTag d (rewriteTag d url t1) t2).data
          = some (pre, (encodeURIComponent t2).data ++
              post.dropWhile (fun c => c != '!')) := by
        rw [hr2data]; exact splitTag_append d pre _ hprenone
      have henc2 : ∀ c ∈ (encodeURIComponent t2).data, (c != '!') = true := by
        intro c hc; simpa using mem_enc_ne_bang h2 c hc
      have hdw2 : ((encodeURIComponent t2).data ++
            post.dropWhile (fun c => c != '!')).dropWhile (fun c => c != '!')
          = post.dropWhile (fun c => c != '!') := by
        rw [dropWhile_append_of_forall _ _ henc2, dropWhile_idem]
      unfold tokenSegSplit
      rw [hsp2, hsp, Option.map_some', Option.map_some', hdw2]

/-- C6 counterexample: with a token containing `!` (which
`encodeURIComponent` does not escape), a second rewrite leaves residue
of the first token outside the token-bearing segment, so the URL parts
outside that segment are no longer byte-identical to the original. -/
theorem rewrite_token_cex :
    tokenSegSplit '3'
        (withEntitiesToken (withEntitiesToken "a!3sX!4end" "p!q") "z").data
      ≠ tokenSegSplit '3' ("a!3sX!4end" : String).data := by
  decide

/-- C6 amended: for tokens free of `!` (true of real pagination
tokens), rewriting a URL with `t1` and the result with `t2` equals
rewriting the original directly with `t2`, and every part of the URL
outside the token-bearing marker segment — the prefix before the
marker and the suffix from the next `!` — is byte-identical to the
original, for both endpoint flavors. -/
theorem rewrite_token_segment_only (url t1 t2 : String)
    (h1 : '!' ∉ t1.data) (h2 : '!' ∉ t2.data) :
    (withEntitiesToken (withEntitiesToken url t1) t2 = withEntitiesToken url t2 ∧
      tokenSegSplit '3' (withEntitiesToken (withEntitiesToken url t1) t2).data
        = tokenSegSplit '3' url.data) ∧
    (withUgcToken (withUgcToken url t1) t2 = withUgcToken url t2 ∧
      tokenSegSplit '2' (withUgcToken (withUgcToken url t1) t2).data
        = tokenSegSplit '2' url.data) := by
  have e := rewriteTag_round '3' url t1 t2 h1
  have u := rewriteTag_round '2' url t1 t2 h1
  exact ⟨⟨e.1, e.2 h2⟩, ⟨u.1, u.2 h2⟩⟩

/-- C6 witness: the amended theorem applied to a concrete URL and two
clean tokens. -/
theorem rewrite_token_segment_only_witness :
    ('!' ∉ ("T1" : String).data ∧ '!' ∉ ("T2" : String).data) ∧
    ((withEntitiesToken (withEntitiesToken "u!3sOLD!e" "T1") "T2"
          = withEntitiesToken "u!3sOLD!e" "T2" ∧
        tokenSegSplit '3' (withEntitiesToken (withEntitiesToken "u!3sOLD!e" "T1") "T2").data
          = tokenSegSplit '3' ("u!3sOLD!e" : String).data) ∧
      (withUgcToken (withUgcToken "u!3sOLD!e" "T1") "T2"
          = withUgcToken "u!3sOLD!e" "T2" ∧
        tokenSegSplit '2' (withUgcToken (withUgcToken "u!3sOLD!e" "T1") "T2").data
          = tokenSegSplit '2' ("u!3sOLD!e" : String).data)) :=
  ⟨⟨by decide, by decide⟩,
   rewrite_token_segment_only "u!3sOLD!e" "T1" "T2" (by decide) (by decide)⟩

/-! ## Gateway lemmas -/

/-- The batched insert only adds rows: stored keys stay stored. -/
theorem mem_tableIds_insertBatchIgnore_left {x : String} :
    ∀ (rows db : List ReviewRow), x ∈ tableIds db →
      x ∈ tableIds (insertBatchIgnore db rows) := by
  intro rows
  induction rows with
  | nil => intro db h; exact h
  | cons r rest ih =>
      intro db h
      show x ∈ tableIds (rest.foldl _ (if r.review_id ∈ tableIds db then db else db ++ [r]))
      split_ifs with hr
      · exact ih db h
      · exact ih (db ++ [r]) (by unfold tableIds; rw [List.map_append]; exact List.mem_append_left _ h)

/-- After the batched insert, the key of every submitted row is
stored. -/
theorem mem_tableIds_insertBatchIgnore {r : ReviewRow} :
    ∀ (rows db : List ReviewRow), r ∈ rows →
      r.review_id ∈ tableIds (insertBatchIgnore db rows) := by
  intro rows
  induction rows with
  | nil => intro db h; simp at h
  | cons r0 rest ih =>
      intro db h
      rcases List.mem_cons.mp h with rfl | hmem
      · show r.review_id ∈ tableIds (rest.foldl _ (if r.review_id ∈ tableIds db then db else db ++ [r]))
        split_ifs with hr
        · exact mem_tableIds_insertBatchIgnore_left rest db hr
        · refine mem_tableIds_insertBatchIgnore_left rest (db ++ [r]) ?_
          unfold tableIds
          rw [List.map_append]
          exact List.mem_append_right _ (by simp)
      · exact ih _ hmem

/-- When every submitted key is already stored, `insertIfNew` issues no
insert and leaves the table unchanged. -/
theorem insertIfNew_all_existing :
    ∀ (db rows : List ReviewRow), (∀ r ∈ rows, r.review_id ∈ tableIds db) →
      insertIfNew db rows = (db, false) := by
  intro db rows hall
  unfold insertIfNew
  by_cases hrows : rows = []
  · rw [if_pos hrows]
  · rw [if_neg hrows]
    have hex : ∀ r ∈ rows, r.review_id ∈ existingIds db (rows.map (·.review_id)) := by
      intro r hr
      unfold existingIds
      rw [List.mem_filter]
      exact ⟨hall r hr, by simpa using List.mem_map_of_mem (·.review_id) hr⟩
    simp [List.filter_eq_nil_iff]
    exact hex

/-- After one `insertIfNew`, every submitted key is stored. -/
theorem insertIfNew_covers (db rows : List ReviewRow) :
    ∀ r ∈ rows, r.review_id ∈ tableIds (insertIfNew db rows).1 := by
  intro r hr
  unfold insertIfNew
  by_cases hrows : rows = []
  · subst hrows; simp at hr
  · rw [if_neg hrows]
    dsimp only
    by_cases hex : r.review_id ∈ existingIds db (rows.map (·.review_id))
    · have hdb : r.review_id ∈ tableIds db := by
        unfold existingIds at hex
        exact (List.mem_filter.mp hex).1
      split_ifs with hfresh
      · exact hdb
      · exact mem_tableIds_insertBatchIgnore_left _ db hdb
    · have hfr : r ∈ rows.filter
          (fun r => decide (¬ r.review_id ∈ existingIds db (rows.map (·.review_id)))) := by
        rw [List.mem_filter]
        exact ⟨hr, by simpa using hex⟩
      split_ifs with hfresh
      · rw [hfresh] at hfr; simp at hfr
      · exact mem_tableIds_insertBatchIgnore _ db hfr

/-- C7: running the check-then-insert gateway twice with the same batch
inserts nothing the second time — the state is unchanged and the
batched insert is not issued — and whenever the existence query
reports every submitted identifier as present, the batched insert is
never invoked at all. -/
theorem insertIfNew_idempotent :
    (∀ db rows : List ReviewRow,
        insertIfNew (insertIfNew db rows).1 rows = ((insertIfNew db rows).1, false)) ∧
    (∀ db rows : List ReviewRow,
        (∀ r ∈ rows, r.review_id ∈ tableIds db) → insertIfNew db rows = (db, false)) :=
  ⟨fun db rows => insertIfNew_all_existing (insertIfNew db rows).1 rows
      (insertIfNew_covers db rows),
   insertIfNew_all_existing⟩

/-- C7 witness: a one-row table receiving the same row again issues no
insert, by the second conjunct of the theorem at a concrete input. -/
theorem insertIfNew_idempotent_witness :
    (∀ r ∈ [(⟨"c", "l", "u", "rid1", "a", none, "t", "d", []⟩ : ReviewRow)],
        r.review_id ∈ tableIds [(⟨"c", "l", "u", "rid1", "a", none, "t", "d", []⟩ : ReviewRow)]) ∧
    insertIfNew [(⟨"c", "l", "u", "rid1", "a", none, "t", "d", []⟩ : ReviewRow)]
        [(⟨"c", "l", "u", "rid1", "a", none, "t", "d", []⟩ : ReviewRow)]
      = ([(⟨"c", "l", "u", "rid1", "a", none, "t", "d", []⟩ : ReviewRow)], false) :=
  ⟨by decide,
   insertIfNew_idempotent.2 [(⟨"c", "l", "u", "rid1", "a", none, "t", "d", []⟩ : ReviewRow)]
     [(⟨"c", "l", "u", "rid1", "a", none, "t", "d", []⟩ : ReviewRow)] (by decide)⟩
